import Mathlib

/-!
Verification of the backup-bear-notes export pipeline.

JavaScript strings are sequences of UTF-16 code units; we model them as
`List Nat` (each element a code unit, `< 2^16` for genuine JS strings,
though most definitions do not need that bound).  `String.slice`,
`substring`, `take` etc. all operate on code units, exactly as in JS.

`Buffer.byteLength(s, 'utf8')` in Node encodes a high/low surrogate pair
as 4 bytes and a lone (unpaired) surrogate as the 3-byte replacement
character U+FFFD; `utf8Len` below reproduces that.
-/

/-- A JavaScript string: its list of UTF-16 code units. -/
abbrev JStr := List Nat

/-- Code units of a Lean string literal (used only for ASCII literals,
where code points and UTF-16 code units coincide). -/
def su (s : String) : JStr := s.data.map Char.toNat

/-- Whether a code unit is a high (leading) surrogate, 0xD800–0xDBFF. -/
def isHighSur (c : Nat) : Bool := 55296 ≤ c && c ≤ 56319

/-- Whether a code unit is a low (trailing) surrogate, 0xDC00–0xDFFF. -/
def isLowSur (c : Nat) : Bool := 56320 ≤ c && c ≤ 57343

/-- Whether a code unit is a surrogate. -/
def isSur (c : Nat) : Bool := isHighSur c || isLowSur c

/-- Node's `Buffer.byteLength(s, 'utf8')`: 1 byte below 0x80, 2 bytes below
0x800, 4 bytes for a high surrogate followed by a low surrogate (one astral
code point), and 3 bytes otherwise — including lone surrogates, which Node
encodes as U+FFFD. -/
def utf8Len : JStr → Nat
  | [] => 0
  | c :: rest =>
    if c < 128 then 1 + utf8Len rest
    else if c < 2048 then 2 + utf8Len rest
    else if isHighSur c then
      match rest with
      | [] => 3
      | c2 :: rest2 => if isLowSur c2 then 4 + utf8Len rest2 else 3 + utf8Len (c2 :: rest2)
    else 3 + utf8Len rest

/-- Fuel-indexed form of the truncation loop; each iteration performs
`t = t.slice(0, -1)` once.  `s.length` much fuel always suffices, since an
empty string has byte length 0. -/
def truncAux : Nat → JStr → Nat → JStr
  | 0, s, _ => s
  | fuel + 1, s, maxB =>
    if utf8Len s ≤ maxB then s
    else truncAux fuel (s.take (s.length - 1)) maxB

/-- The JS loop `while (Buffer.byteLength(t,'utf8') > maxB) t = t.slice(0,-1)`:
repeatedly drop the final UTF-16 code unit until the UTF-8 byte length fits
the budget.  Shared by `buildFilename`, `buildAssetFilename` and
`insertSuffix` in the source. -/
def truncateToBytes (s : JStr) (maxB : Nat) : JStr :=
  truncAux s.length s maxB

/-- The JS whitespace code units recognised by `String.prototype.trim`:
WhiteSpace (TAB, VT, FF, SP, NBSP, ZWNBSP and the Unicode Zs category) and
LineTerminator (LF, CR, LS, PS). -/
def isJsWs (c : Nat) : Bool :=
  c == 9 || c == 10 || c == 11 || c == 12 || c == 13 || c == 32 ||
  c == 160 || c == 5760 || (8192 ≤ c && c ≤ 8202) ||
  c == 8232 || c == 8233 || c == 8239 || c == 8287 || c == 12288 || c == 65279

/-- JS `String.prototype.trim`: strip leading and trailing whitespace. -/
def jsTrim (s : JStr) : JStr :=
  ((s.dropWhile isJsWs).reverse.dropWhile isJsWs).reverse

/-- Decimal rendering of a Nat as code units (JS number-to-string for the
integral ids the pipeline passes). -/
def natToUnits (n : Nat) : JStr := su (Nat.repr n)

/-- src/build-filename.ts `buildFilename(title, noteId)`.

`title` is a JS string; `noteId` has TS type `number | string | null` and is
only ever interpolated into a template string, so it is modelled as the
option of its string form (`none` covers both `undefined` and `null`, which
the source treats alike).

Replace every '/' (unit 47) with '-' (45); if the sanitized title trims to
empty and a fallback id is supplied, use `untitled-<id>`; truncate to 251
UTF-8 bytes by dropping trailing code units; append ".md". -/
def buildFilename (title : JStr) (noteId : Option JStr) : JStr :=
  let sanitized := title.map (fun c => if c == 47 then 45 else c)
  let base :=
    match noteId with
    | some nid => if jsTrim sanitized == [] then su "untitled-" ++ nid else sanitized
    | none => sanitized
  truncateToBytes base 251 ++ su ".md"

/-- src/lib/backup.ts `buildAssetFilename(uuid, filename)`: first 8 code
units of the uuid, a hyphen, then the original filename truncated so that
the whole stays within 255 UTF-8 bytes. -/
def buildAssetFilename (uuid filename : JStr) : JStr :=
  let pfx := uuid.take 8 ++ [45]
  let pfxBytes := utf8Len pfx
  let maxNameBytes := 255 - pfxBytes
  pfx ++ truncateToBytes filename maxNameBytes

/-- src/lib/backup.ts `insertSuffix(filename, suffixNum)`: strip the 3-unit
".md", truncate the base so that base + "-<n>" + ".md" fits in 255 UTF-8
bytes, and reassemble. -/
def insertSuffix (filename : JStr) (suffixNum : Nat) : JStr :=
  let sfx := 45 :: natToUnits suffixNum
  let baseName := filename.take (filename.length - 3)
  let sfxBytes := utf8Len sfx
  let maxBaseBytes := 255 - sfxBytes - 3
  truncateToBytes baseName maxBaseBytes ++ sfx ++ su ".md"

/-- src/lib/backup.ts `bearEncode`: replace every space with "%20". -/
def bearEncode (s : JStr) : JStr :=
  (s.map (fun c => if c == 32 then su "%20" else [c])).flatten

/-- Characters left literal by JS `encodeURIComponent`:
A–Z a–z 0–9 - _ . ! ~ * ' ( ). -/
def isUnreservedUri (c : Nat) : Bool :=
  (65 ≤ c && c ≤ 90) || (97 ≤ c && c ≤ 122) || (48 ≤ c && c ≤ 57) ||
  c == 45 || c == 95 || c == 46 || c == 33 || c == 126 || c == 42 ||
  c == 39 || c == 40 || c == 41

/-- Uppercase hexadecimal digit as a code unit. -/
def hexDigit (n : Nat) : Nat := if n < 10 then 48 + n else 55 + n

/-- Percent-encoding of one byte: "%XY". -/
def pctByte (b : Nat) : JStr := [37, hexDigit (b / 16), hexDigit (b % 16)]

/-- UTF-8 bytes of a Unicode code point. -/
def utf8Bytes (cp : Nat) : List Nat :=
  if cp < 128 then [cp]
  else if cp < 2048 then [192 + cp / 64, 128 + cp % 64]
  else if cp < 65536 then [224 + cp / 4096, 128 + cp / 64 % 64, 128 + cp % 64]
  else [240 + cp / 262144, 128 + cp / 4096 % 64, 128 + cp / 64 % 64, 128 + cp % 64]

/-- JS `encodeURIComponent`: unreserved code units stay literal, a surrogate
pair is percent-encoded as its astral code point's UTF-8 bytes, everything
else as its own UTF-8 bytes.  On a lone surrogate real JS raises a
`URIError`; the model instead emits the encoding of U+FFFD (that input never
arises in the properties proved here, which use ASCII filenames). -/
def encodeURIComponent : JStr → JStr
  | [] => []
  | c :: rest =>
    if isUnreservedUri c then c :: encodeURIComponent rest
    else if isHighSur c then
      match rest with
      | c2 :: rest2 =>
        if isLowSur c2 then
          ((utf8Bytes (65536 + (c - 55296) * 1024 + (c2 - 56320))).map pctByte).flatten ++
            encodeURIComponent rest2
        else ((utf8Bytes 65533).map pctByte).flatten ++ encodeURIComponent (c2 :: rest2)
      | [] => ((utf8Bytes 65533).map pctByte).flatten
    else if isLowSur c then ((utf8Bytes 65533).map pctByte).flatten ++ encodeURIComponent rest
    else ((utf8Bytes c).map pctByte).flatten ++ encodeURIComponent rest

/-!
The source builds `RegExp` objects from `escapeRegex(pattern)`, i.e. from
regex-escaped literal strings, so each regex matches a fixed literal
candidate inside a fixed syntactic shape.  The two shapes are modelled
directly as matchers over code-unit lists with JS `String.replace` global
semantics: scan left to right, at each position try the match, on success
emit the replacement and continue after the match, otherwise advance one
unit.  ('$'-substitution patterns that a replacement string containing '$'
would trigger in JS are not modelled; the replacement paths built here are
'$'-free.)
-/

/-- Match of `(!\[[^\]]*\]\()cand(\))` at the head of `s`.  Returns the
first capture group "![alt](" and the remainder after the final ')'. -/
def matchImgAt (cand : JStr) (s : JStr) : Option (JStr × JStr) :=
  match s with
  | c1 :: c2 :: rest =>
    if c1 = 33 ∧ c2 = 91 then
      match rest.dropWhile (fun c => c != 93) with
      | d1 :: d2 :: rest2 =>
        if d1 = 93 ∧ d2 = 40 ∧ cand.isPrefixOf rest2 then
          match rest2.drop cand.length with
          | e1 :: rest4 =>
            if e1 = 41 then
              some (c1 :: c2 :: (rest.takeWhile (fun c => c != 93) ++ [93, 40]), rest4)
            else none
          | [] => none
        else none
      | _ => none
    else none
  | _ => none

/-- Backtracking search for the closing "-->" of an HTML comment: `[^>]*`
is greedy, so the largest split `k` within the non-'>' run whose remainder
starts with "-->" wins. -/
def findClose (rest : JStr) : Nat → Option (JStr × JStr)
  | 0 =>
    if (su "-->").isPrefixOf rest then some ([], rest.drop 3) else none
  | k + 1 =>
    if (su "-->").isPrefixOf (rest.drop (k + 1)) then
      some (rest.take (k + 1), rest.drop (k + 4))
    else findClose rest k

/-- Match of the optional `<!--[^>]*-->` annotation at the head of `s`;
returns the full comment text and the remainder. -/
def matchCommentAt (s : JStr) : Option (JStr × JStr) :=
  match s with
  | a :: b :: c :: d :: rest =>
    if a = 60 ∧ b = 33 ∧ c = 45 ∧ d = 45 then
      match findClose rest (rest.takeWhile (fun x => x != 62)).length with
      | some (inner, rest2) => some (su "<!--" ++ inner ++ su "-->", rest2)
      | none => none
    else none
  | _ => none

/-- Match of `(\[[^\]]*\]\()cand(\)(?:<!--[^>]*-->)?)` at the head of `s`.
Returns group 1 "[label](", group 2 ")" possibly followed by the comment,
and the remainder. -/
def matchLinkAt (cand : JStr) (s : JStr) : Option (JStr × JStr × JStr) :=
  match s with
  | c1 :: rest =>
    if c1 = 91 then
      match rest.dropWhile (fun c => c != 93) with
      | d1 :: d2 :: rest2 =>
        if d1 = 93 ∧ d2 = 40 ∧ cand.isPrefixOf rest2 then
          match rest2.drop cand.length with
          | e1 :: rest4 =>
            if e1 = 41 then
              match matchCommentAt rest4 with
              | some (cmt, rest5) =>
                some (c1 :: (rest.takeWhile (fun c => c != 93) ++ [93, 40]),
                  41 :: cmt, rest5)
              | none =>
                some (c1 :: (rest.takeWhile (fun c => c != 93) ++ [93, 40]),
                  [41], rest4)
            else none
          | [] => none
        else none
      | _ => none
    else none
  | [] => none

/-- Fuel-indexed driver of the global image-reference replacement; fuel
`s.length` suffices since every step consumes at least one unit. -/
def replImgAux (cand np : JStr) : Nat → JStr → JStr
  | 0, s => s
  | fuel + 1, s =>
    match matchImgAt cand s with
    | some (g1, rest) => g1 ++ np ++ 41 :: replImgAux cand np fuel rest
    | none =>
      match s with
      | [] => []
      | c :: t => c :: replImgAux cand np fuel t

/-- `result.replace(imgRegex, "$1" + newPath + "$2")` with the global flag. -/
def replImgAll (s cand np : JStr) : JStr := replImgAux cand np s.length s

/-- Fuel-indexed driver of the global link-reference replacement. -/
def replLinkAux (cand np : JStr) : Nat → JStr → JStr
  | 0, s => s
  | fuel + 1, s =>
    match matchLinkAt cand s with
    | some (g1, g2, rest) => g1 ++ np ++ g2 ++ replLinkAux cand np fuel rest
    | none =>
      match s with
      | [] => []
      | c :: t => c :: replLinkAux cand np fuel t

/-- `result.replace(linkRegex, "$1" + newPath + "$2")` with the global flag. -/
def replLinkAll (s cand np : JStr) : JStr := replLinkAux cand np s.length s

/-- One iteration of the inner loop of `rewriteAssetReferences`: the image
replacement followed by the link replacement for one candidate pattern. -/
def applyPattern (s cand np : JStr) : JStr :=
  replLinkAll (replImgAll s cand np) cand np

/-- The body of the `for (const [originalFilename, newAssetFilename] ...)`
loop: three candidate forms (fully percent-encoded, space-only-encoded,
literal), each run through the image and link replacements in order. -/
def rewriteEntry (ap s origName newName : JStr) : JStr :=
  let fullUrl := encodeURIComponent origName
  let bear := bearEncode origName
  let np := ap ++ bearEncode newName
  applyPattern (applyPattern (applyPattern s fullUrl np) bear np) origName np

/-- src/lib/backup.ts `rewriteAssetReferences(text, fileMap, assetPrefix)`.
The file map (a JS object) is modelled as its entry list in iteration
order. `!text` is true for both `null` and the empty string. -/
def rewriteAssetReferences (text : Option JStr) (fileMap : List (JStr × JStr))
    (ap : JStr) : Option JStr :=
  match text with
  | none => none
  | some t =>
    if t.isEmpty || fileMap.isEmpty then some t
    else some (fileMap.foldl (fun acc e => rewriteEntry ap acc e.1 e.2) t)







/-- NoteRow from src/types/index.ts: one row per (note, tag) pairing.
`trashed` is a number in the source (SQLite integer) tested for JS
truthiness; `modificationDate` is a nullable numeric timestamp (the claims
proved here evaluate it only at integral values, where JS double arithmetic
is exact). -/
structure NoteRow where
  id : Nat
  title : JStr
  text : Option JStr
  tag : Option JStr
  trashed : Nat
  modificationDate : Option Int
deriving DecidableEq

/-- FileRow from src/types/index.ts: one row per attachment. -/
structure FileRow where
  noteId : Nat
  uuid : Option JStr
  filename : Option JStr
  extension : Option JStr
deriving DecidableEq

/-- ProcessedNote from src/types/index.ts: a NoteRow extended with its final
filename and destination directory. -/
structure ProcessedNote extends NoteRow where
  filename : JStr
  destinationDirectory : JStr
deriving DecidableEq

/-- Node `path.join` for the plain separator-free segments this pipeline
joins (`path.join` additionally normalises duplicate separators and dot
segments, which such segments never trigger). -/
def pathJoin (a b : JStr) : JStr := a ++ [47] ++ b

/-- JS truthiness of a nullable string: `null`/`undefined` and "" are falsy. -/
def jsStrFalsy : Option JStr → Bool
  | none => true
  | some s => s.isEmpty

/-- `row.tag || 'untagged'` from `deduplicateFilenames`. -/
def tagDirName (tag : Option JStr) : JStr :=
  match tag with
  | some t => if t.isEmpty then su "untagged" else t
  | none => su "untagged"

/-- The destination directory chosen for a row:
`!useTagsAsDirectories ? outputDirectory : path.join(outputDirectory, row.tag || 'untagged')`. -/
def destDirOf (outputDirectory : JStr) (useTagsAsDirectories : Bool) (r : NoteRow) : JStr :=
  if useTagsAsDirectories then pathJoin outputDirectory (tagDirName r.tag)
  else outputDirectory

/-- The pair indexing the per-run filename counters: destination directory
and base filename (`buildFilename(row.title, row.id)`). -/
def rowKey (out : JStr) (useTags : Bool) (r : NoteRow) : JStr × JStr :=
  (destDirOf out useTags r, buildFilename r.title (some (natToUnits r.id)))

/-- The loop body of `deduplicateFilenames`, with the nested counter record
`filenameCounters` modelled as a total function (0 = key absent; the source
only ever stores values ≥ 1, so absence and 0 coincide).  A count of 0
assigns the base filename and stores 1; a count k ≥ 1 assigns
`insertSuffix(base, k)` and stores k + 1. -/
def dedupGo (out : JStr) (useTags : Bool) :
    ((JStr × JStr) → Nat) → List NoteRow → List ProcessedNote
  | _, [] => []
  | c, r :: rest =>
    let key := rowKey out useTags r
    let k := c key
    let finalFilename := if k = 0 then key.2 else insertSuffix key.2 k
    ⟨r, finalFilename, key.1⟩ ::
      dedupGo out useTags (fun x => if x = key then k + 1 else c x) rest

/-- src/lib/backup.ts `deduplicateFilenames(rows, outputDirectory,
useTagsAsDirectories)`. -/
def deduplicateFilenames (rows : List NoteRow) (outputDirectory : JStr)
    (useTagsAsDirectories : Bool) : List ProcessedNote :=
  dedupGo outputDirectory useTagsAsDirectories (fun _ => 0) rows

/-- Proleptic-Gregorian leap year rule. -/
def isLeapYear (y : Nat) : Bool := (y % 4 == 0 && y % 100 != 0) || y % 400 == 0

/-- Days in a civil year. -/
def daysInYear (y : Nat) : Nat := if isLeapYear y then 366 else 365

/-- Days in a civil month (1-based). -/
def daysInMonth (y m : Nat) : Nat :=
  if m == 2 then (if isLeapYear y then 29 else 28)
  else if m == 4 || m == 6 || m == 9 || m == 11 then 30 else 31

/-- Days from 1970-01-01 to the given civil date (y ≥ 1970, 1-based month
and day) — the calendar content of `Date.UTC` needed here. -/
def daysFromUnixEpoch (y m d : Nat) : Nat :=
  ((List.range (y - 1970)).map (fun i => daysInYear (1970 + i))).sum +
  ((List.range (m - 1)).map (fun i => daysInMonth y (1 + i))).sum + (d - 1)

/-- JS `Date.UTC(year, monthIndex, day)` in milliseconds since the Unix
epoch, for midnight-UTC dates from 1970 on (months are 0-based in JS). -/
def dateUTCms (y monthIndex d : Nat) : Int :=
  (daysFromUnixEpoch y (monthIndex + 1) d : Int) * 86400000

/-- src/lib/backup.ts `CORE_DATA_EPOCH_SECONDS = Date.UTC(2001, 0, 1) / 1000`. -/
def CORE_DATA_EPOCH_SECONDS : Int := dateUTCms 2001 0 1 / 1000

/-- The timestamp conversion applied before `fs.utimes`:
`new Date((modificationDate + CORE_DATA_EPOCH_SECONDS) * 1000)` — an
absolute instant in milliseconds since the Unix epoch. -/
def coreDataToUnixMs (md : Int) : Int := (md + CORE_DATA_EPOCH_SECONDS) * 1000

/-- src/lib/backup.ts `IMAGE_EXTENSIONS`. -/
def IMAGE_EXTENSIONS : List JStr :=
  [su "png", su "jpg", su "jpeg", su "gif", su "heic", su "webp", su "tiff",
   su "svg", su "bmp"]

/-- JS `toLowerCase` on the ASCII range (the database's extensions are
already lowercase-normalised ASCII; non-ASCII lowering is not modelled). -/
def toLowerAscii (s : JStr) : JStr :=
  s.map (fun c => if 65 ≤ c && c ≤ 90 then c + 32 else c)

/-- src/lib/backup.ts `getSourceFilePath(localFilesPath, uuid, filename,
extension)`: the classified source location of an attachment. -/
def getSourceFilePath (localFilesPath uuid filename : JStr)
    (extension : Option JStr) : JStr :=
  let folder :=
    if IMAGE_EXTENSIONS.contains (toLowerAscii (extension.getD []))
    then su "Note Images" else su "Note Files"
  pathJoin (pathJoin (pathJoin localFilesPath folder) uuid) filename

/-- One filesystem operation scheduled by the orchestrator.  A `copy`
records the uuid whose membership test in `copiedUuids` let it through,
alongside the source and destination paths passed to `fs.copyFile`. -/
inductive BackupOp where
  | unlink (path : JStr)
  | copy (uuid : JStr) (src : JStr) (dest : JStr)
  | write (path : JStr) (content : Option JStr)
  | utimes (path : JStr) (atime : Int) (mtime : Int)
deriving DecidableEq

/-- Assignment `fileMap[key] = value` on a JS object modelled as its entry
list: an existing key keeps its position and gets the new value, a new key
is appended. -/
def upsertEntry (m : List (JStr × JStr)) (k v : JStr) : List (JStr × JStr) :=
  match m with
  | [] => [(k, v)]
  | (k', v') :: rest =>
    if k' = k then (k, v) :: rest else (k', v') :: upsertEntry rest k v

/-- The `for (const file of noteFiles)` loop of `backup`: skip attachments
with a falsy uuid or filename, record the asset filename in the file map,
and schedule a copy the first time a uuid is seen in the run.  Returns the
updated copied-uuid set, the file map and the scheduled copy operations. -/
def processFiles (assetsDirectory localFilesPath : JStr) :
    List JStr → List (JStr × JStr) → List FileRow →
    List JStr × List (JStr × JStr) × List BackupOp
  | copied, fileMap, [] => (copied, fileMap, [])
  | copied, fileMap, f :: rest =>
    match f.uuid, f.filename with
    | some u, some fn =>
      if u.isEmpty || fn.isEmpty then
        processFiles assetsDirectory localFilesPath copied fileMap rest
      else
        let newFilename := buildAssetFilename u fn
        let fileMap2 := upsertEntry fileMap fn newFilename
        if u ∈ copied then
          processFiles assetsDirectory localFilesPath copied fileMap2 rest
        else
          let src := getSourceFilePath localFilesPath u fn f.extension
          let dest := pathJoin assetsDirectory newFilename
          let r := processFiles assetsDirectory localFilesPath (u :: copied) fileMap2 rest
          (r.1, r.2.1, BackupOp.copy u src dest :: r.2.2)
    | _, _ => processFiles assetsDirectory localFilesPath copied fileMap rest

/-- The run-scoped configuration threaded through phase 9 of `backup`. -/
structure RunCfg where
  assetsDirectory : JStr
  localFilesPath : JStr
  assetPre : JStr
  filesByNoteId : Nat → List FileRow

/-- The body of `processedNotes.map(...)` in `backup`: a trashed note
schedules only the deletion of its destination path; a live note schedules
the first-time attachment copies, the write of its rewritten text, and —
when a modification date is present — a `utimes` with the converted instant
as both access and modification time. -/
def processNote (cfg : RunCfg) (copied : List JStr) (n : ProcessedNote) :
    List JStr × List BackupOp :=
  if n.trashed != 0 then
    (copied, [BackupOp.unlink (pathJoin n.destinationDirectory n.filename)])
  else
    let r := processFiles cfg.assetsDirectory cfg.localFilesPath copied []
      (cfg.filesByNoteId n.id)
    let filePath := pathJoin n.destinationDirectory n.filename
    let rewritten := rewriteAssetReferences n.text r.2.1 cfg.assetPre
    let baseOps := r.2.2 ++ [BackupOp.write filePath rewritten]
    match n.modificationDate with
    | some md =>
      (r.1, baseOps ++ [BackupOp.utimes filePath (coreDataToUnixMs md) (coreDataToUnixMs md)])
    | none => (r.1, baseOps)

/-- Sequential traversal of the processed notes (the synchronous part of
`processedNotes.map`), threading the copied-uuid set and concatenating each
note's scheduled operations. -/
def runNotes (cfg : RunCfg) : List JStr → List ProcessedNote → List JStr × List BackupOp
  | copied, [] => (copied, [])
  | copied, n :: rest =>
    let r1 := processNote cfg copied n
    let r2 := runNotes cfg r1.1 rest
    (r2.1, r1.2 ++ r2.2)

/-- Grouping of the attachment rows by `noteId` (`filesByNoteId` in
`backup`); bucket order is the source order of the rows. -/
def groupFilesByNoteId (fileRows : List FileRow) (noteId : Nat) : List FileRow :=
  fileRows.filter (fun f => f.noteId == noteId)

/-- The full schedule of per-note filesystem operations issued by phase 9 of
`backup`, from the rows the two queries returned.  When no attachment
source is configured the file lookup is empty, as in the source. -/
def backupSchedule (rows : List NoteRow) (fileRows : List FileRow)
    (outputDirectory : JStr) (useTagsAsDirectories : Bool)
    (localFilesPath : Option JStr) : List BackupOp :=
  let assetsDirectory := pathJoin outputDirectory (su "assets")
  let filesBy := fun id =>
    if jsStrFalsy localFilesPath then [] else groupFilesByNoteId fileRows id
  let processed := deduplicateFilenames rows outputDirectory useTagsAsDirectories
  let ap := if useTagsAsDirectories then su "../assets/" else su "assets/"
  (runNotes ⟨assetsDirectory, localFilesPath.getD [], ap, filesBy⟩ [] processed).2

/-- The uuids of the copy operations in a schedule, in order. -/
def copyUuids (ops : List BackupOp) : List JStr :=
  ops.filterMap (fun op => match op with | .copy u _ _ => some u | _ => none)

/-- A Node error with its optional `code` property. -/
structure NodeErr where
  code : Option JStr
deriving DecidableEq

/-- Outcome of one raw filesystem primitive. -/
abbrev FsOutcome := Except NodeErr Unit

/-- The `.catch` handler `backup` attaches to `fs.unlink` and `fs.copyFile`:
`if (error.code !== 'ENOENT') throw error` — ENOENT is swallowed into
success, anything else rethrown. -/
def swallowEnoent (r : FsOutcome) : FsOutcome :=
  match r with
  | .ok _ => .ok ()
  | .error e => if e.code == some (su "ENOENT") then .ok () else .error e

/-- Settled result of one scheduled operation given the raw outcome of its
primitive: deletes and copies recover from ENOENT, writes and timestamp
updates propagate every failure. -/
def settleOp (op : BackupOp) (r : FsOutcome) : FsOutcome :=
  match op with
  | .unlink _ => swallowEnoent r
  | .copy _ _ _ => swallowEnoent r
  | _ => r

/-- `Promise.all` over settled task results: succeeds iff every task
succeeded, otherwise propagates a failure. -/
def promiseAll (rs : List FsOutcome) : FsOutcome :=
  match rs.find? (fun r => match r with | .error _ => true | .ok _ => false) with
  | some r => r
  | none => .ok ()



/-- Scanner deciding that a code-unit sequence contains no lone surrogate:
every high surrogate is immediately followed by a low surrogate and no low
surrogate appears unpaired — i.e. the string is a well-formed UTF-16
encoding, cut only at character boundaries. -/
def noLoneSur : JStr → Bool
  | [] => true
  | c :: rest =>
    if isHighSur c then
      match rest with
      | c2 :: rest2 => isLowSur c2 && noLoneSur rest2
      | [] => false
    else if isLowSur c then false
    else noLoneSur rest

/-- Occurrence count of a counter key in a list of keys. -/
def occCount (key : JStr × JStr) : List (JStr × JStr) → Nat
  | [] => 0
  | k :: rest => (if k = key then 1 else 0) + occCount key rest

/-- Whether an attachment row passes the guard
`if (!file.uuid || !file.filename) continue` for the given uuid: its uuid
is (truthy and) equal to `u` and its filename is truthy. -/
def eligibleRefB (u : JStr) (f : FileRow) : Bool :=
  f.uuid == some u && !u.isEmpty &&
    (match f.filename with | some fn => !fn.isEmpty | none => false)

/-! ## Theorems -/

theorem utf8Len_cons_ascii {c : Nat} (rest : JStr) (h : c < 128) :
    utf8Len (c :: rest) = 1 + utf8Len rest := by
  cases rest <;> simp [utf8Len, h]

theorem utf8Len_cons_two {c : Nat} (rest : JStr) (h1 : ¬ c < 128) (h2 : c < 2048) :
    utf8Len (c :: rest) = 2 + utf8Len rest := by
  cases rest <;> simp [utf8Len, h1, h2]

theorem utf8Len_cons_three {c : Nat} (rest : JStr) (h1 : ¬ c < 128)
    (h2 : ¬ c < 2048) (h3 : isHighSur c = false) :
    utf8Len (c :: rest) = 3 + utf8Len rest := by
  cases rest <;> simp [utf8Len, h1, h2, h3]

theorem utf8Len_pair {c c2 : Nat} (rest2 : JStr) (h3 : isHighSur c = true)
    (h4 : isLowSur c2 = true) :
    utf8Len (c :: c2 :: rest2) = 4 + utf8Len rest2 := by
  have h1 : ¬ c < 128 := by simp [isHighSur] at h3; omega
  have h2 : ¬ c < 2048 := by simp [isHighSur] at h3; omega
  simp [utf8Len, h1, h2, h3, h4]

theorem utf8Len_high_nil {c : Nat} (h3 : isHighSur c = true) :
    utf8Len [c] = 3 := by
  have h1 : ¬ c < 128 := by simp [isHighSur] at h3; omega
  have h2 : ¬ c < 2048 := by simp [isHighSur] at h3; omega
  simp [utf8Len, h1, h2, h3]

theorem utf8Len_high_notlow {c c2 : Nat} (rest2 : JStr) (h3 : isHighSur c = true)
    (h4 : isLowSur c2 = false) :
    utf8Len (c :: c2 :: rest2) = 3 + utf8Len (c2 :: rest2) := by
  have h1 : ¬ c < 128 := by simp [isHighSur] at h3; omega
  have h2 : ¬ c < 2048 := by simp [isHighSur] at h3; omega
  simp [utf8Len, h1, h2, h3, h4]

theorem utf8Len_le_three_mul (s : JStr) : utf8Len s ≤ 3 * s.length := by
  induction s using utf8Len.induct with
  | case1 => simp [utf8Len]
  | case2 c rest h ih => rw [utf8Len_cons_ascii rest h]; simp; omega
  | case3 c rest h1 h2 ih => rw [utf8Len_cons_two rest h1 h2]; simp; omega
  | case4 c h1 h2 h3 => rw [utf8Len_high_nil h3]; simp
  | case5 c h1 h2 h3 c2 rest2 h4 ih => rw [utf8Len_pair rest2 h3 h4]; simp; omega
  | case6 c h1 h2 h3 c2 rest2 h4 ih =>
    rw [utf8Len_high_notlow rest2 h3 (by simpa using h4)]
    simp at ih ⊢; omega
  | case7 c rest h1 h2 h3 ih =>
    rw [utf8Len_cons_three rest h1 h2 (by simpa using h3)]; simp; omega

theorem utf8Len_append_le (a b : JStr) : utf8Len (a ++ b) ≤ utf8Len a + utf8Len b := by
  induction a using utf8Len.induct generalizing b with
  | case1 => simp [utf8Len]
  | case2 c rest h ih =>
    rw [List.cons_append, utf8Len_cons_ascii (rest ++ b) h, utf8Len_cons_ascii rest h]
    have := ih b; omega
  | case3 c rest h1 h2 ih =>
    rw [List.cons_append, utf8Len_cons_two (rest ++ b) h1 h2, utf8Len_cons_two rest h1 h2]
    have := ih b; omega
  | case4 c h1 h2 h3 =>
    rw [utf8Len_high_nil h3]
    cases b with
    | nil => simp [utf8Len_high_nil h3]
    | cons c2 rest2 =>
      cases h4 : isLowSur c2 with
      | false => rw [List.singleton_append, utf8Len_high_notlow rest2 h3 h4]
      | true =>
        rw [List.singleton_append, utf8Len_pair rest2 h3 h4]
        have hlow1 : ¬ c2 < 128 := by simp [isLowSur] at h4; omega
        have hlow2 : ¬ c2 < 2048 := by simp [isLowSur] at h4; omega
        have hlh : isHighSur c2 = false := by simp [isHighSur, isLowSur] at *; omega
        rw [utf8Len_cons_three rest2 hlow1 hlow2 hlh]
        omega
  | case5 c h1 h2 h3 c2 rest2 h4 ih =>
    rw [List.cons_append, List.cons_append, utf8Len_pair (rest2 ++ b) h3 h4,
      utf8Len_pair rest2 h3 h4]
    have := ih b; omega
  | case6 c h1 h2 h3 c2 rest2 h4 ih =>
    have h4' : isLowSur c2 = false := by simpa using h4
    rw [List.cons_append, List.cons_append, utf8Len_high_notlow (rest2 ++ b) h3 h4',
      utf8Len_high_notlow rest2 h3 h4']
    have := ih b
    rw [List.cons_append] at this
    omega
  | case7 c rest h1 h2 h3 ih =>
    have h3' : isHighSur c = false := by simpa using h3
    rw [List.cons_append, utf8Len_cons_three (rest ++ b) h1 h2 h3',
      utf8Len_cons_three rest h1 h2 h3']
    have := ih b; omega

theorem truncAux_isPrefix (fuel : Nat) : ∀ (s : JStr) (maxB : Nat), truncAux fuel s maxB <+: s := by
  induction fuel with
  | zero => intro s maxB; simp [truncAux]
  | succ f ih =>
    intro s maxB
    simp only [truncAux]
    split
    · exact List.prefix_rfl
    · exact (ih _ _).trans (List.take_prefix _ _)

theorem truncateToBytes_isPrefix (s : JStr) (maxB : Nat) :
    truncateToBytes s maxB <+: s := truncAux_isPrefix _ _ _

theorem truncAux_le (fuel : Nat) : ∀ (s : JStr) (maxB : Nat), s.length ≤ fuel →
    utf8Len (truncAux fuel s maxB) ≤ maxB := by
  induction fuel with
  | zero =>
    intro s maxB h
    have : s = [] := List.eq_nil_of_length_eq_zero (Nat.le_zero.mp h)
    subst this; simp [truncAux, utf8Len]
  | succ f ih =>
    intro s maxB h
    simp only [truncAux]
    split
    · assumption
    · rename_i hgt
      apply ih
      have hne : s ≠ [] := by
        intro he; subst he; simp [utf8Len] at hgt
      have : 1 ≤ s.length := List.length_pos.mpr hne
      simp [List.length_take]; omega

theorem truncateToBytes_le (s : JStr) (maxB : Nat) :
    utf8Len (truncateToBytes s maxB) ≤ maxB := truncAux_le _ _ _ (Nat.le_refl _)

theorem truncateToBytes_of_le {s : JStr} {maxB : Nat} (h : utf8Len s ≤ maxB) :
    truncateToBytes s maxB = s := by
  unfold truncateToBytes
  cases hl : s.length with
  | zero => simp [truncAux]
  | succ n => simp [truncAux, h]

theorem noLoneSur_cons_nonsur {c : Nat} (rest : JStr) (h : isSur c = false) :
    noLoneSur (c :: rest) = noLoneSur rest := by
  have h' : isHighSur c = false ∧ isLowSur c = false := by
    simpa [isSur, Bool.or_eq_false_iff] using h
  cases rest <;> simp [noLoneSur, h'.1, h'.2]

theorem noLoneSur_of_nonsur {s : JStr} (h : ∀ c ∈ s, isSur c = false) :
    noLoneSur s = true := by
  induction s with
  | nil => rfl
  | cons c rest ih =>
    rw [noLoneSur_cons_nonsur rest (h c (List.mem_cons_self c rest))]
    exact ih (fun c' hc' => h c' (List.mem_cons_of_mem c hc'))

/-- C2 counterexample: the TS signature of `buildFilename` admits a string
fallback id, and a fallback id containing '/' (unit 47) flows into the
output verbatim when the title is empty — the output of
`buildFilename('', '/')` is "untitled-" + "/" + ".md", which contains '/'. -/
theorem claim2_counterexample : 47 ∈ buildFilename [] (some [47]) := by decide

theorem buildFilename_shape (title : JStr) (noteId : Option JStr) :
    ∃ base, buildFilename title noteId = truncateToBytes base 251 ++ su ".md" ∧
      (base = title.map (fun c => if c = 47 then 45 else c) ∨
       ∃ nid, noteId = some nid ∧ base = su "untitled-" ++ nid) := by
  cases noteId with
  | none => exact ⟨_, rfl, Or.inl (by simp)⟩
  | some nid =>
    by_cases hcond : jsTrim (title.map (fun c => if c = 47 then 45 else c)) = []
    · refine ⟨su "untitled-" ++ nid, ?_, Or.inr ⟨nid, rfl, rfl⟩⟩
      simp [buildFilename, hcond]
    · refine ⟨title.map (fun c => if c = 47 then 45 else c), ?_, Or.inl rfl⟩
      simp [buildFilename, hcond]

/-- C2 amended: for every title and optional fallback id, the Filename
Builder's output ends with ".md" and occupies at most 255 UTF-8 bytes; it
contains no '/' provided the fallback id's string form contains none (as is
the case for the numeric row ids the Deduplicator passes). -/
theorem claim2_theorem (title : JStr) (noteId : Option JStr) :
    su ".md" <:+ buildFilename title noteId ∧
    utf8Len (buildFilename title noteId) ≤ 255 ∧
    ((∀ nid, noteId = some nid → 47 ∉ nid) → 47 ∉ buildFilename title noteId) := by
  obtain ⟨base, heq, hbase⟩ := buildFilename_shape title noteId
  refine ⟨?_, ?_, ?_⟩
  · rw [heq]; exact List.suffix_append _ _
  · rw [heq]
    have h1 := utf8Len_append_le (truncateToBytes base 251) (su ".md")
    have h2 := truncateToBytes_le base 251
    have h3 : utf8Len (su ".md") = 3 := by decide
    omega
  · intro hnid hmem
    have hsan : ∀ x : JStr, 47 ∉ x.map (fun c => if c = 47 then 45 else c) := by
      intro x hx
      rcases List.mem_map.mp hx with ⟨y, _, hy⟩
      by_cases hy47 : y = 47 <;> simp [hy47] at hy
    rw [heq] at hmem
    rcases List.mem_append.mp hmem with hm | hm
    · have hb := (truncateToBytes_isPrefix base 251).subset hm
      rcases hbase with hb1 | ⟨nid, hnid2, hb2⟩
      · subst hb1; exact hsan title hb
      · subst hb2
        rcases List.mem_append.mp hb with h2 | h2
        · revert h2; decide
        · exact hnid nid hnid2 h2
    · revert hm; decide

theorem claim2_witness :
    47 ∉ buildFilename (su "a/b") (some (natToUnits 7)) :=
  (claim2_theorem (su "a/b") (some (natToUnits 7))).2.2
    (by intro nid h; cases h; decide)

set_option maxRecDepth 40000 in
/-- C3 counterexample: a title of 63 astral characters (each the surrogate
pair U+D83D U+DE00, 4 UTF-8 bytes) measures 252 bytes, exceeding the 251
budget; the truncation loop removes one UTF-16 code unit — not one
character — leaving 62 pairs plus a dangling high surrogate, so the result
is not a character-boundary cut of the input, and the Filename Builder
emits that split pair. -/
theorem claim3_counterexample :
    noLoneSur ((List.replicate 63 ([55357, 56832] : JStr)).flatten) = true ∧
    251 < utf8Len ((List.replicate 63 ([55357, 56832] : JStr)).flatten) ∧
    truncateToBytes ((List.replicate 63 ([55357, 56832] : JStr)).flatten) 251 =
      (List.replicate 62 ([55357, 56832] : JStr)).flatten ++ [55357] ∧
    noLoneSur (truncateToBytes ((List.replicate 63 ([55357, 56832] : JStr)).flatten) 251)
      = false ∧
    buildFilename ((List.replicate 63 ([55357, 56832] : JStr)).flatten) none =
      ((List.replicate 62 ([55357, 56832] : JStr)).flatten ++ [55357]) ++ su ".md" := by
  refine ⟨by decide, by decide, by decide, by decide, by decide⟩

/-- C3 amended: byte-length truncation removes one UTF-16 code unit at a
time from the end, always yields a code-unit prefix of the input within the
byte budget, and never splits a multi-byte character whose code points lie
in the Basic Multilingual Plane (no surrogates); characters outside the BMP
are encoded as surrogate pairs, which the final removal can split (see the
counterexample). -/
theorem claim3_theorem (s : JStr) (maxB : Nat) :
    truncateToBytes s maxB <+: s ∧
    utf8Len (truncateToBytes s maxB) ≤ maxB ∧
    ((∀ c ∈ s, isSur c = false) → noLoneSur (truncateToBytes s maxB) = true) := by
  refine ⟨truncateToBytes_isPrefix s maxB, truncateToBytes_le s maxB, ?_⟩
  intro h
  exact noLoneSur_of_nonsur
    (fun c hc => h c ((truncateToBytes_isPrefix s maxB).subset hc))

theorem claim3_witness :
    noLoneSur (truncateToBytes (su "abcdef") 3) = true :=
  (claim3_theorem (su "abcdef") 3).2.2 (by decide)

/-- C7: the Asset Filename Builder returns the first 8 code units of the
attachment id, a '-', then a truncated initial segment of the original
filename, and the result always fits in 255 UTF-8 bytes; nothing beyond
the original filename's own (possibly truncated) text is appended. -/
theorem claim7_theorem (uuid filename : JStr) :
    buildAssetFilename uuid filename =
      (uuid.take 8 ++ [45]) ++
        truncateToBytes filename (255 - utf8Len (uuid.take 8 ++ [45])) ∧
    truncateToBytes filename (255 - utf8Len (uuid.take 8 ++ [45])) <+: filename ∧
    utf8Len (buildAssetFilename uuid filename) ≤ 255 := by
  refine ⟨rfl, truncateToBytes_isPrefix _ _, ?_⟩
  have h1 := utf8Len_append_le (uuid.take 8 ++ [45])
    (truncateToBytes filename (255 - utf8Len (uuid.take 8 ++ [45])))
  have h2 := truncateToBytes_le filename (255 - utf8Len (uuid.take 8 ++ [45]))
  have h3 := utf8Len_le_three_mul (uuid.take 8 ++ [45])
  have h4 : (uuid.take 8 ++ [45]).length ≤ 9 := by
    simp [List.length_take]
  have h5 : utf8Len (buildAssetFilename uuid filename) =
      utf8Len ((uuid.take 8 ++ [45]) ++
        truncateToBytes filename (255 - utf8Len (uuid.take 8 ++ [45]))) := rfl
  rw [h5]; omega

theorem buildFilename_untitled {t : JStr} (nid : JStr)
    (h : jsTrim (t.map (fun c => if c = 47 then 45 else c)) = []) :
    buildFilename t (some nid) =
      truncateToBytes (su "untitled-" ++ nid) 251 ++ su ".md" := by
  simp [buildFilename, h]

/-- C8: an empty title with a fallback id yields "untitled-<id>.md", a
whitespace-only title "   " with a fallback id likewise, and an empty title
with no fallback identifier yields ".md" (the hypothesis scopes the id to
renderings that need no truncation, which covers every numeric id). -/
theorem claim8_theorem (nid : JStr) (h : utf8Len (su "untitled-" ++ nid) ≤ 251) :
    buildFilename [] (some nid) = (su "untitled-" ++ nid) ++ su ".md" ∧
    buildFilename (su "   ") (some nid) = (su "untitled-" ++ nid) ++ su ".md" ∧
    buildFilename [] none = su ".md" := by
  refine ⟨?_, ?_, by decide⟩
  · rw [buildFilename_untitled nid (by decide), truncateToBytes_of_le h]
  · rw [buildFilename_untitled nid (by decide), truncateToBytes_of_le h]

theorem claim8_witness :
    utf8Len (su "untitled-" ++ natToUnits 42) ≤ 251 ∧
    buildFilename [] (some (natToUnits 42)) =
      (su "untitled-" ++ natToUnits 42) ++ su ".md" :=
  ⟨by decide, (claim8_theorem (natToUnits 42) (by decide)).1⟩

theorem dedupGo_get? (out : JStr) (flag : Bool) :
    ∀ (rows : List NoteRow) (c : (JStr × JStr) → Nat) (i : Nat) (r : NoteRow),
      rows.get? i = some r →
      (dedupGo out flag c rows).get? i = some
        ⟨r,
         (if c (rowKey out flag r) +
              occCount (rowKey out flag r) ((rows.take i).map (rowKey out flag)) = 0
          then (rowKey out flag r).2
          else insertSuffix (rowKey out flag r).2
            (c (rowKey out flag r) +
              occCount (rowKey out flag r) ((rows.take i).map (rowKey out flag)))),
         (rowKey out flag r).1⟩ := by
  intro rows
  induction rows with
  | nil => intro c i r h; simp at h
  | cons hd tl ih =>
    intro c i r h
    cases i with
    | zero =>
      simp only [List.get?_cons_zero, Option.some.injEq] at h
      subst h
      simp [dedupGo, occCount]
    | succ n =>
      simp only [List.get?_cons_succ] at h
      have key := rowKey out flag r
      have step := ih
        (fun x => if x = rowKey out flag hd then c (rowKey out flag hd) + 1 else c x) n r h
      have hcount :
          (if rowKey out flag r = rowKey out flag hd
           then c (rowKey out flag hd) + 1 else c (rowKey out flag r)) +
            occCount (rowKey out flag r) ((tl.take n).map (rowKey out flag)) =
          c (rowKey out flag r) +
            occCount (rowKey out flag r) ((((hd :: tl)).take (n + 1)).map (rowKey out flag)) := by
        simp only [List.take_succ_cons, List.map_cons, occCount]
        by_cases hk : rowKey out flag r = rowKey out flag hd
        · rw [hk]; simp; omega
        · rw [if_neg hk, if_neg (fun e => hk e.symm)]; omega
      rw [hcount] at step
      simpa only [dedupGo, List.get?_cons_succ] using step

/-- C1: deduplication is scoped per (destination directory, base filename)
key and sequential: in every row list the row whose key has occurred k
times before it receives the unsuffixed base name when k = 0 and
`insertSuffix base k` (suffix "-k" before ".md") when k ≥ 1 — so the first
occurrence keeps the base name, the second gets "-1", the third "-2", and
rows with equal base filenames but different destination directories (whose
keys differ) each count from zero and receive the unsuffixed name. -/
theorem claim1_theorem (rows : List NoteRow) (out : JStr) (flag : Bool)
    (i : Nat) (r : NoteRow) (h : rows.get? i = some r) :
    ∃ pn, (deduplicateFilenames rows out flag).get? i = some pn ∧
      pn.toNoteRow = r ∧
      pn.destinationDirectory = (rowKey out flag r).1 ∧
      pn.filename =
        (if occCount (rowKey out flag r) ((rows.take i).map (rowKey out flag)) = 0
         then (rowKey out flag r).2
         else insertSuffix (rowKey out flag r).2
           (occCount (rowKey out flag r) ((rows.take i).map (rowKey out flag)))) := by
  have step := dedupGo_get? out flag rows (fun _ => 0) i r h
  exact ⟨_, step, rfl, rfl, by simp⟩

theorem claim1_witness :
    ∃ pn,
      (deduplicateFilenames
        [⟨1, su "Same", none, none, 0, none⟩, ⟨2, su "Same", none, none, 0, none⟩,
         ⟨3, su "Same", none, none, 0, none⟩] (su "out") false).get? 2 = some pn ∧
      pn.toNoteRow = ⟨3, su "Same", none, none, 0, none⟩ ∧
      pn.destinationDirectory =
        (rowKey (su "out") false ⟨3, su "Same", none, none, 0, none⟩).1 ∧
      pn.filename =
        (if occCount (rowKey (su "out") false ⟨3, su "Same", none, none, 0, none⟩)
              (([⟨1, su "Same", none, none, 0, none⟩, ⟨2, su "Same", none, none, 0, none⟩,
                 ⟨3, su "Same", none, none, 0, none⟩] : List NoteRow).take 2
                |>.map (rowKey (su "out") false)) = 0
         then (rowKey (su "out") false ⟨3, su "Same", none, none, 0, none⟩).2
         else insertSuffix (rowKey (su "out") false ⟨3, su "Same", none, none, 0, none⟩).2
           (occCount (rowKey (su "out") false ⟨3, su "Same", none, none, 0, none⟩)
              (([⟨1, su "Same", none, none, 0, none⟩, ⟨2, su "Same", none, none, 0, none⟩,
                 ⟨3, su "Same", none, none, 0, none⟩] : List NoteRow).take 2
                |>.map (rowKey (su "out") false)))) :=
  claim1_theorem
    [⟨1, su "Same", none, none, 0, none⟩, ⟨2, su "Same", none, none, 0, none⟩,
     ⟨3, su "Same", none, none, 0, none⟩] (su "out") false 2
    ⟨3, su "Same", none, none, 0, none⟩ (by rfl)

theorem dedupGo_map_filename (out : JStr) (flag : Bool) :
    ∀ (rows1 rows2 : List NoteRow) (c : (JStr × JStr) → Nat),
      rows1.map (rowKey out flag) = rows2.map (rowKey out flag) →
      (dedupGo out flag c rows1).map (fun pn => pn.filename) =
        (dedupGo out flag c rows2).map (fun pn => pn.filename) := by
  intro rows1
  induction rows1 with
  | nil =>
    intro rows2 c h
    have : rows2 = [] := by
      cases rows2 with
      | nil => rfl
      | cons a b => simp at h
    subst this; rfl
  | cons hd tl ih =>
    intro rows2 c h
    cases rows2 with
    | nil => simp at h
    | cons hd2 tl2 =>
      simp only [List.map_cons, List.cons.injEq] at h
      obtain ⟨h1, h2⟩ := h
      simp only [dedupGo, List.map_cons]
      rw [h1]
      exact congrArg _ (ih tl2 _ h2)

/-- C10: the Deduplicator never reads the trashed flag — replacing every
row's flag by anything leaves every assigned filename unchanged — and in
particular, when a trashed row is the first occurrence of its
(directory, base filename) key and a later live row is the second, the
trashed row claims the unsuffixed name and the live row gets suffix "-1". -/
theorem claim10_theorem :
    (∀ (rows : List NoteRow) (out : JStr) (flag : Bool) (g : NoteRow → Nat),
      (deduplicateFilenames (rows.map (fun r => {r with trashed := g r})) out flag).map
          (fun pn => pn.filename) =
        (deduplicateFilenames rows out flag).map (fun pn => pn.filename)) ∧
    (∀ (rows : List NoteRow) (out : JStr) (flag : Bool) (i j : Nat)
        (ri rj : NoteRow),
      rows.get? i = some ri → rows.get? j = some rj →
      ri.trashed ≠ 0 → rj.trashed = 0 →
      rowKey out flag ri = rowKey out flag rj →
      occCount (rowKey out flag ri) ((rows.take i).map (rowKey out flag)) = 0 →
      occCount (rowKey out flag rj) ((rows.take j).map (rowKey out flag)) = 1 →
      ∃ pi pj, (deduplicateFilenames rows out flag).get? i = some pi ∧
        (deduplicateFilenames rows out flag).get? j = some pj ∧
        pi.filename = (rowKey out flag ri).2 ∧
        pj.filename = insertSuffix (rowKey out flag rj).2 1) := by
  constructor
  · intro rows out flag g
    apply dedupGo_map_filename
    rw [List.map_map]
    have : ∀ r ∈ rows, (rowKey out flag ∘ fun r => {r with trashed := g r}) r =
        rowKey out flag r := fun r _ => rfl
    exact List.map_congr_left this
  · intro rows out flag i j ri rj hi hj htr htl hkey hocci hoccj
    have si := dedupGo_get? out flag rows (fun _ => 0) i ri hi
    have sj := dedupGo_get? out flag rows (fun _ => 0) j rj hj
    refine ⟨_, _, si, sj, ?_, ?_⟩
    · rw [List.map_take] at hocci
      simp [hocci]
    · rw [List.map_take] at hoccj
      simp [hoccj]

theorem claim10_witness :
    ∃ pi pj,
      (deduplicateFilenames
        [⟨1, su "T", none, none, 1, none⟩, ⟨2, su "T", none, none, 0, none⟩]
        (su "out") false).get? 0 = some pi ∧
      (deduplicateFilenames
        [⟨1, su "T", none, none, 1, none⟩, ⟨2, su "T", none, none, 0, none⟩]
        (su "out") false).get? 1 = some pj ∧
      pi.filename = (rowKey (su "out") false ⟨1, su "T", none, none, 1, none⟩).2 ∧
      pj.filename = insertSuffix (rowKey (su "out") false ⟨2, su "T", none, none, 0, none⟩).2 1 :=
  claim10_theorem.2
    [⟨1, su "T", none, none, 1, none⟩, ⟨2, su "T", none, none, 0, none⟩]
    (su "out") false 0 1
    ⟨1, su "T", none, none, 1, none⟩ ⟨2, su "T", none, none, 0, none⟩
    (by rfl) (by rfl) (by decide) (by rfl) (by decide) (by decide) (by decide)

theorem processFiles_ops_copy (ad lfp : JStr) :
    ∀ (files : List FileRow) (copied : List JStr) (fm : List (JStr × JStr))
      (op : BackupOp), op ∈ (processFiles ad lfp copied fm files).2.2 →
      ∃ u s d, op = BackupOp.copy u s d := by
  intro files
  induction files with
  | nil => intro copied fm op h; simp [processFiles] at h
  | cons f rest ih =>
    intro copied fm op h
    cases hu : f.uuid with
    | none =>
      simp only [processFiles, hu] at h
      exact ih _ _ _ h
    | some u =>
      cases hfn : f.filename with
      | none =>
        simp only [processFiles, hu, hfn] at h
        exact ih _ _ _ h
      | some fn =>
        simp only [processFiles, hu, hfn] at h
        split at h
        · exact ih _ _ _ h
        · split at h
          · exact ih _ _ _ h
          · rcases List.mem_cons.mp h with h1 | h1
            · exact ⟨_, _, _, h1⟩
            · exact ih _ _ _ h1

/-- C6: a trashed processed note schedules exactly the deletion of its
destination path and no write; the handler attached to the delete resolves
an ENOENT failure as success and rethrows any other error; and a failed
task fails the joined `Promise.all`, aborting the run. -/
theorem claim6_theorem :
    (∀ (cfg : RunCfg) (copied : List JStr) (n : ProcessedNote), n.trashed ≠ 0 →
      processNote cfg copied n =
        (copied, [BackupOp.unlink (pathJoin n.destinationDirectory n.filename)]) ∧
      ∀ p cnt, BackupOp.write p cnt ∉ (processNote cfg copied n).2) ∧
    (∀ p : JStr,
      settleOp (BackupOp.unlink p) (Except.error ⟨some (su "ENOENT")⟩) = Except.ok ()) ∧
    (∀ (p : JStr) (e : NodeErr), e.code ≠ some (su "ENOENT") →
      settleOp (BackupOp.unlink p) (Except.error e) = Except.error e) ∧
    (∀ (rs : List FsOutcome) (e : NodeErr), Except.error e ∈ rs →
      ∃ e', promiseAll rs = Except.error e') := by
  refine ⟨?_, ?_, ?_, ?_⟩
  · intro cfg copied n h
    have hb : (n.trashed != 0) = true := by simpa [bne_iff_ne] using h
    constructor
    · simp [processNote, hb]
    · intro p cnt hmem
      simp [processNote, hb] at hmem
  · intro p; rfl
  · intro p e h
    simp [settleOp, swallowEnoent, beq_eq_false_iff_ne.mpr h]
  · intro rs e hmem
    induction rs with
    | nil => simp at hmem
    | cons r rest ih =>
      cases r with
      | error e0 =>
        exact ⟨e0, by simp [promiseAll, List.find?_cons_of_pos]⟩
      | ok u =>
        rcases List.mem_cons.mp hmem with h1 | h1
        · simp at h1
        · obtain ⟨e', he'⟩ := ih h1
          refine ⟨e', ?_⟩
          rw [promiseAll, List.find?_cons_of_neg _ (by simp)]
          rw [promiseAll] at he'
          exact he'

theorem claim6_witness :
    processNote ⟨su "a", su "l", su "p", fun _ => []⟩ []
        ⟨⟨1, su "T", none, none, 1, none⟩, su "T.md", su "out"⟩ =
      ([], [BackupOp.unlink (pathJoin (su "out") (su "T.md"))]) ∧
    settleOp (BackupOp.unlink (su "x")) (Except.error ⟨some (su "EACCES")⟩) =
      Except.error ⟨some (su "EACCES")⟩ ∧
    ∃ e', promiseAll [Except.ok (), Except.error (⟨some (su "EACCES")⟩ : NodeErr)] =
      Except.error e' :=
  ⟨(claim6_theorem.1 _ _ _ (by decide)).1,
   claim6_theorem.2.2.1 _ _ (by decide),
   claim6_theorem.2.2.2 _ ⟨some (su "EACCES")⟩ (by simp)⟩

/-- C9: `CORE_DATA_EPOCH_SECONDS` is 978307200, so a modification date of 0
converts to the instant `Date.UTC(2001, 0, 1)` — midnight UTC, 2001-01-01;
for a live note carrying a modification date the schedule ends with a
`utimes` whose access and modification arguments are both that converted
instant; a missing modification date (or a trashed note) schedules no
`utimes` at all. -/
theorem claim9_theorem :
    CORE_DATA_EPOCH_SECONDS = 978307200 ∧
    coreDataToUnixMs 0 = dateUTCms 2001 0 1 ∧
    (∀ (cfg : RunCfg) (copied : List JStr) (n : ProcessedNote) (md : Int),
      n.trashed = 0 → n.modificationDate = some md →
      (processNote cfg copied n).2 =
        (processFiles cfg.assetsDirectory cfg.localFilesPath copied []
            (cfg.filesByNoteId n.id)).2.2 ++
          [BackupOp.write (pathJoin n.destinationDirectory n.filename)
             (rewriteAssetReferences n.text
               (processFiles cfg.assetsDirectory cfg.localFilesPath copied []
                 (cfg.filesByNoteId n.id)).2.1 cfg.assetPre),
           BackupOp.utimes (pathJoin n.destinationDirectory n.filename)
             (coreDataToUnixMs md) (coreDataToUnixMs md)]) ∧
    (∀ (cfg : RunCfg) (copied : List JStr) (n : ProcessedNote),
      n.trashed = 0 → n.modificationDate = none →
      ∀ p a m, BackupOp.utimes p a m ∉ (processNote cfg copied n).2) ∧
    (∀ (cfg : RunCfg) (copied : List JStr) (n : ProcessedNote), n.trashed ≠ 0 →
      ∀ p a m, BackupOp.utimes p a m ∉ (processNote cfg copied n).2) := by
  refine ⟨by decide, by decide, ?_, ?_, ?_⟩
  · intro cfg copied n md h hmd
    have hb : (n.trashed != 0) = false := by simp [bne_iff_ne]; exact h
    simp [processNote, hb, hmd]
  · intro cfg copied n h hmd p a m hmem
    have hb : (n.trashed != 0) = false := by simp [bne_iff_ne]; exact h
    simp [processNote, hb, hmd] at hmem
    obtain ⟨u, s, d, he⟩ := processFiles_ops_copy _ _ _ _ _ _ hmem
    cases he
  · intro cfg copied n h p a m hmem
    have hb : (n.trashed != 0) = true := by simpa [bne_iff_ne] using h
    simp [processNote, hb] at hmem

theorem claim9_witness :
    (processNote ⟨su "a", su "l", su "p", fun _ => []⟩ []
        ⟨⟨1, su "T", some (su "body"), none, 0, some 0⟩, su "T.md", su "out"⟩).2 =
      (processFiles (su "a") (su "l") [] [] []).2.2 ++
        [BackupOp.write (pathJoin (su "out") (su "T.md"))
           (rewriteAssetReferences (some (su "body"))
             (processFiles (su "a") (su "l") [] [] []).2.1 (su "p")),
         BackupOp.utimes (pathJoin (su "out") (su "T.md"))
           (coreDataToUnixMs 0) (coreDataToUnixMs 0)] :=
  claim9_theorem.2.2.1 ⟨su "a", su "l", su "p", fun _ => []⟩ []
    ⟨⟨1, su "T", some (su "body"), none, 0, some 0⟩, su "T.md", su "out"⟩ 0
    (by decide) rfl

theorem copyUuids_append (a b : List BackupOp) :
    copyUuids (a ++ b) = copyUuids a ++ copyUuids b :=
  List.filterMap_append a b _

theorem processFiles_cons_none_uuid {f : FileRow} (ad lfp : JStr)
    (copied : List JStr) (fm : List (JStr × JStr)) (rest : List FileRow)
    (h : f.uuid = none) :
    processFiles ad lfp copied fm (f :: rest) = processFiles ad lfp copied fm rest := by
  simp [processFiles, h]

theorem processFiles_cons_none_fn {f : FileRow} {u : JStr} (ad lfp : JStr)
    (copied : List JStr) (fm : List (JStr × JStr)) (rest : List FileRow)
    (hu : f.uuid = some u) (h : f.filename = none) :
    processFiles ad lfp copied fm (f :: rest) = processFiles ad lfp copied fm rest := by
  simp [processFiles, hu, h]

theorem processFiles_cons_empty {f : FileRow} {u fn : JStr} (ad lfp : JStr)
    (copied : List JStr) (fm : List (JStr × JStr)) (rest : List FileRow)
    (hu : f.uuid = some u) (hf : f.filename = some fn)
    (he : (u.isEmpty || fn.isEmpty) = true) :
    processFiles ad lfp copied fm (f :: rest) = processFiles ad lfp copied fm rest := by
  simp [processFiles, hu, hf, he]

theorem processFiles_cons_dup {f : FileRow} {u fn : JStr} (ad lfp : JStr)
    (copied : List JStr) (fm : List (JStr × JStr)) (rest : List FileRow)
    (hu : f.uuid = some u) (hf : f.filename = some fn)
    (he : (u.isEmpty || fn.isEmpty) = false) (hc : u ∈ copied) :
    processFiles ad lfp copied fm (f :: rest) =
      processFiles ad lfp copied (upsertEntry fm fn (buildAssetFilename u fn)) rest := by
  simp [processFiles, hu, hf, he, hc]

theorem processFiles_cons_new {f : FileRow} {u fn : JStr} (ad lfp : JStr)
    (copied : List JStr) (fm : List (JStr × JStr)) (rest : List FileRow)
    (hu : f.uuid = some u) (hf : f.filename = some fn)
    (he : (u.isEmpty || fn.isEmpty) = false) (hc : u ∉ copied) :
    processFiles ad lfp copied fm (f :: rest) =
      ((processFiles ad lfp (u :: copied)
          (upsertEntry fm fn (buildAssetFilename u fn)) rest).1,
       (processFiles ad lfp (u :: copied)
          (upsertEntry fm fn (buildAssetFilename u fn)) rest).2.1,
       BackupOp.copy u (getSourceFilePath lfp u fn f.extension)
           (pathJoin ad (buildAssetFilename u fn)) ::
         (processFiles ad lfp (u :: copied)
            (upsertEntry fm fn (buildAssetFilename u fn)) rest).2.2) := by
  simp [processFiles, hu, hf, he, hc]

theorem eligibleRefB_none_uuid {f : FileRow} (u : JStr) (h : f.uuid = none) :
    eligibleRefB u f = false := by
  simp [eligibleRefB, h]

theorem eligibleRefB_none_fn {f : FileRow} (u : JStr) (h : f.filename = none) :
    eligibleRefB u f = false := by
  simp [eligibleRefB, h]

theorem eligibleRefB_some {f : FileRow} {u0 fn : JStr} (u : JStr)
    (hu : f.uuid = some u0) (hf : f.filename = some fn) :
    eligibleRefB u f = ((u0 == u) && !u.isEmpty && !fn.isEmpty) := by
  simp [eligibleRefB, hu, hf]

theorem processFiles_copy_mem (ad lfp : JStr) :
    ∀ (files : List FileRow) (copied : List JStr) (fm : List (JStr × JStr)) (u : JStr),
      u ∈ copyUuids (processFiles ad lfp copied fm files).2.2 ↔
        u ∉ copied ∧ ∃ f ∈ files, eligibleRefB u f = true := by
  intro files
  induction files with
  | nil =>
    intro copied fm u
    simp [processFiles, copyUuids]
  | cons f rest ih =>
    intro copied fm u
    cases hu : f.uuid with
    | none =>
      rw [processFiles_cons_none_uuid ad lfp copied fm rest hu, ih]
      have helig : eligibleRefB u f = false := eligibleRefB_none_uuid u hu
      constructor
      · rintro ⟨h1, g, hg, he⟩; exact ⟨h1, g, List.mem_cons_of_mem f hg, he⟩
      · rintro ⟨h1, g, hg, he⟩
        rcases List.mem_cons.mp hg with rfl | hg2
        · rw [helig] at he; cases he
        · exact ⟨h1, g, hg2, he⟩
    | some u0 =>
      cases hfn : f.filename with
      | none =>
        rw [processFiles_cons_none_fn ad lfp copied fm rest hu hfn, ih]
        have helig : eligibleRefB u f = false := eligibleRefB_none_fn u hfn
        constructor
        · rintro ⟨h1, g, hg, he⟩; exact ⟨h1, g, List.mem_cons_of_mem f hg, he⟩
        · rintro ⟨h1, g, hg, he⟩
          rcases List.mem_cons.mp hg with rfl | hg2
          · rw [helig] at he; cases he
          · exact ⟨h1, g, hg2, he⟩
      | some fn =>
        by_cases hg : (u0.isEmpty || fn.isEmpty) = true
        · rw [processFiles_cons_empty ad lfp copied fm rest hu hfn hg, ih]
          have helig : eligibleRefB u f = false := by
            rw [eligibleRefB_some u hu hfn]
            by_cases huu : u0 = u
            · subst huu
              rcases Bool.or_eq_true_iff.mp hg with h0 | h0 <;> simp [h0]
            · have hb : (u0 == u) = false := beq_eq_false_iff_ne.mpr huu
              simp [hb]
          constructor
          · rintro ⟨h1, g, hgm, he⟩; exact ⟨h1, g, List.mem_cons_of_mem f hgm, he⟩
          · rintro ⟨h1, g, hgm, he⟩
            rcases List.mem_cons.mp hgm with rfl | hg2
            · rw [helig] at he; cases he
            · exact ⟨h1, g, hg2, he⟩
        · have hg' : (u0.isEmpty || fn.isEmpty) = false := by
            cases h : (u0.isEmpty || fn.isEmpty) with
            | true => exact absurd h hg
            | false => rfl
          have hsplit := Bool.or_eq_false_iff.mp hg'
          have helig : ∀ v, eligibleRefB v f = true ↔ v = u0 := by
            intro v
            rw [eligibleRefB_some v hu hfn]
            simp only [Bool.and_eq_true, beq_iff_eq, Bool.not_eq_true']
            constructor
            · rintro ⟨⟨h1, _⟩, _⟩; exact h1.symm
            · rintro rfl; exact ⟨⟨rfl, hsplit.1⟩, hsplit.2⟩
          by_cases hc : u0 ∈ copied
          · rw [processFiles_cons_dup ad lfp copied fm rest hu hfn hg' hc, ih]
            constructor
            · rintro ⟨h1, g, hgm, he⟩; exact ⟨h1, g, List.mem_cons_of_mem f hgm, he⟩
            · rintro ⟨h1, g, hgm, he⟩
              rcases List.mem_cons.mp hgm with rfl | hg2
              · exact absurd (((helig u).mp he) ▸ hc) h1
              · exact ⟨h1, g, hg2, he⟩
          · rw [processFiles_cons_new ad lfp copied fm rest hu hfn hg' hc]
            simp only [copyUuids, List.filterMap_cons]
            constructor
            · intro hmem
              rcases List.mem_cons.mp hmem with rfl | hmem2
              · exact ⟨hc, f, List.mem_cons_self f rest, (helig _).mpr rfl⟩
              · have hm := (ih (u0 :: copied) _ u).mp hmem2
                exact ⟨fun hin => hm.1 (List.mem_cons_of_mem u0 hin),
                  hm.2.choose, List.mem_cons_of_mem f hm.2.choose_spec.1,
                  hm.2.choose_spec.2⟩
            · rintro ⟨h1, g, hgm, he⟩
              rcases List.mem_cons.mp hgm with rfl | hg2
              · have heq : u = u0 := (helig u).mp he
                subst heq
                exact List.mem_cons_self u _
              · by_cases hu0 : u = u0
                · subst hu0; exact List.mem_cons_self u _
                · refine List.mem_cons_of_mem _ ((ih (u0 :: copied) _ u).mpr ⟨?_, g, hg2, he⟩)
                  intro hin
                  rcases List.mem_cons.mp hin with h | h
                  · exact hu0 h
                  · exact h1 h

theorem processFiles_copied (ad lfp : JStr) :
    ∀ (files : List FileRow) (copied : List JStr) (fm : List (JStr × JStr)),
      (processFiles ad lfp copied fm files).1 =
        (copyUuids (processFiles ad lfp copied fm files).2.2).reverse ++ copied := by
  intro files
  induction files with
  | nil => intro copied fm; simp [processFiles, copyUuids]
  | cons f rest ih =>
    intro copied fm
    cases hu : f.uuid with
    | none => rw [processFiles_cons_none_uuid ad lfp copied fm rest hu]; exact ih _ _
    | some u0 =>
      cases hfn : f.filename with
      | none => rw [processFiles_cons_none_fn ad lfp copied fm rest hu hfn]; exact ih _ _
      | some fn =>
        by_cases hg : (u0.isEmpty || fn.isEmpty) = true
        · rw [processFiles_cons_empty ad lfp copied fm rest hu hfn hg]; exact ih _ _
        · have hg' : (u0.isEmpty || fn.isEmpty) = false := by
            cases h : (u0.isEmpty || fn.isEmpty) with
            | true => exact absurd h hg
            | false => rfl
          by_cases hc : u0 ∈ copied
          · rw [processFiles_cons_dup ad lfp copied fm rest hu hfn hg' hc]; exact ih _ _
          · rw [processFiles_cons_new ad lfp copied fm rest hu hfn hg' hc]
            simp only [copyUuids, List.filterMap_cons]
            rw [ih (u0 :: copied) _]
            simp [copyUuids]

theorem processFiles_copy_nodup (ad lfp : JStr) :
    ∀ (files : List FileRow) (copied : List JStr) (fm : List (JStr × JStr)),
      (copyUuids (processFiles ad lfp copied fm files).2.2).Nodup := by
  intro files
  induction files with
  | nil => intro copied fm; simp [processFiles, copyUuids]
  | cons f rest ih =>
    intro copied fm
    cases hu : f.uuid with
    | none => rw [processFiles_cons_none_uuid ad lfp copied fm rest hu]; exact ih _ _
    | some u0 =>
      cases hfn : f.filename with
      | none => rw [processFiles_cons_none_fn ad lfp copied fm rest hu hfn]; exact ih _ _
      | some fn =>
        by_cases hg : (u0.isEmpty || fn.isEmpty) = true
        · rw [processFiles_cons_empty ad lfp copied fm rest hu hfn hg]; exact ih _ _
        · have hg' : (u0.isEmpty || fn.isEmpty) = false := by
            cases h : (u0.isEmpty || fn.isEmpty) with
            | true => exact absurd h hg
            | false => rfl
          by_cases hc : u0 ∈ copied
          · rw [processFiles_cons_dup ad lfp copied fm rest hu hfn hg' hc]; exact ih _ _
          · rw [processFiles_cons_new ad lfp copied fm rest hu hfn hg' hc]
            simp only [copyUuids, List.filterMap_cons]
            rw [List.nodup_cons]
            constructor
            · intro hin
              have := (processFiles_copy_mem ad lfp rest (u0 :: copied) _ u0).mp hin
              exact this.1 (List.mem_cons_self u0 copied)
            · exact ih _ _

theorem processNote_ops (cfg : RunCfg) (copied : List JStr) (n : ProcessedNote)
    (h : n.trashed = 0) :
    copyUuids (processNote cfg copied n).2 =
      copyUuids (processFiles cfg.assetsDirectory cfg.localFilesPath copied []
        (cfg.filesByNoteId n.id)).2.2 ∧
    (processNote cfg copied n).1 =
      (processFiles cfg.assetsDirectory cfg.localFilesPath copied []
        (cfg.filesByNoteId n.id)).1 := by
  have hb : (n.trashed != 0) = false := by simp [bne_iff_ne]; exact h
  cases hmd : n.modificationDate with
  | some md =>
    constructor
    · simp [processNote, hb, hmd, copyUuids_append, copyUuids]
    · simp [processNote, hb, hmd]
  | none =>
    constructor
    · simp [processNote, hb, hmd, copyUuids_append, copyUuids]
    · simp [processNote, hb, hmd]

theorem processNote_copied (cfg : RunCfg) (copied : List JStr) (n : ProcessedNote) :
    (processNote cfg copied n).1 =
      (copyUuids (processNote cfg copied n).2).reverse ++ copied := by
  by_cases h : n.trashed = 0
  · obtain ⟨h1, h2⟩ := processNote_ops cfg copied n h
    rw [h1, h2, processFiles_copied]
  · have hb : (n.trashed != 0) = true := by simpa [bne_iff_ne] using h
    simp [processNote, hb, copyUuids]

theorem processNote_copy_mem (cfg : RunCfg) (copied : List JStr) (n : ProcessedNote)
    (u : JStr) :
    u ∈ copyUuids (processNote cfg copied n).2 ↔
      n.trashed = 0 ∧ u ∉ copied ∧
        ∃ f ∈ cfg.filesByNoteId n.id, eligibleRefB u f = true := by
  by_cases h : n.trashed = 0
  · rw [(processNote_ops cfg copied n h).1, processFiles_copy_mem]
    simp [h]
  · have hb : (n.trashed != 0) = true := by simpa [bne_iff_ne] using h
    simp [processNote, hb, copyUuids, h]

theorem processNote_copy_nodup (cfg : RunCfg) (copied : List JStr) (n : ProcessedNote) :
    (copyUuids (processNote cfg copied n).2).Nodup := by
  by_cases h : n.trashed = 0
  · rw [(processNote_ops cfg copied n h).1]
    exact processFiles_copy_nodup _ _ _ _ _
  · have hb : (n.trashed != 0) = true := by simpa [bne_iff_ne] using h
    simp [processNote, hb, copyUuids]

theorem runNotes_copied (cfg : RunCfg) :
    ∀ (notes : List ProcessedNote) (copied : List JStr),
      (runNotes cfg copied notes).1 =
        (copyUuids (runNotes cfg copied notes).2).reverse ++ copied := by
  intro notes
  induction notes with
  | nil => intro copied; simp [runNotes, copyUuids]
  | cons n rest ih =>
    intro copied
    simp only [runNotes]
    rw [ih, processNote_copied, copyUuids_append]
    simp [List.reverse_append, List.append_assoc]

theorem runNotes_copy_mem (cfg : RunCfg) :
    ∀ (notes : List ProcessedNote) (copied : List JStr) (u : JStr),
      u ∈ copyUuids (runNotes cfg copied notes).2 ↔
        u ∉ copied ∧ ∃ n ∈ notes, n.trashed = 0 ∧
          ∃ f ∈ cfg.filesByNoteId n.id, eligibleRefB u f = true := by
  intro notes
  induction notes with
  | nil => intro copied u; simp [runNotes, copyUuids]
  | cons n rest ih =>
    intro copied u
    simp only [runNotes, copyUuids_append, List.mem_append]
    constructor
    · intro h
      rcases h with hA | hB
      · have hm := (processNote_copy_mem cfg copied n u).mp hA
        exact ⟨hm.2.1, n, List.mem_cons_self n rest, hm.1, hm.2.2⟩
      · have hm := (ih _ u).mp hB
        have hnot : u ∉ (processNote cfg copied n).1 := hm.1
        rw [processNote_copied] at hnot
        have h2 : u ∉ copied := fun hin => hnot (List.mem_append.mpr (Or.inr hin))
        obtain ⟨m, hmem, hrest⟩ := hm.2
        exact ⟨h2, m, List.mem_cons_of_mem n hmem, hrest⟩
    · rintro ⟨hc, m, hm, htr, hf⟩
      by_cases hA : u ∈ copyUuids (processNote cfg copied n).2
      · exact Or.inl hA
      · right
        rcases List.mem_cons.mp hm with rfl | hm2
        · exact absurd ((processNote_copy_mem cfg copied m u).mpr ⟨htr, hc, hf⟩) hA
        · apply (ih _ u).mpr
          refine ⟨?_, m, hm2, htr, hf⟩
          rw [processNote_copied]
          intro hin
          rcases List.mem_append.mp hin with h | h
          · exact hA (List.mem_reverse.mp h)
          · exact hc h

theorem runNotes_copy_nodup (cfg : RunCfg) :
    ∀ (notes : List ProcessedNote) (copied : List JStr),
      (copyUuids (runNotes cfg copied notes).2).Nodup := by
  intro notes
  induction notes with
  | nil => intro copied; simp [runNotes, copyUuids]
  | cons n rest ih =>
    intro copied
    simp only [runNotes, copyUuids_append]
    rw [List.nodup_append]
    refine ⟨processNote_copy_nodup cfg copied n, ih _, ?_⟩
    intro u hA hB
    have hm := (runNotes_copy_mem cfg rest _ u).mp hB
    have hnot : u ∉ (processNote cfg copied n).1 := hm.1
    rw [processNote_copied] at hnot
    exact hnot (List.mem_append.mpr (Or.inl (List.mem_reverse.mpr hA)))

/-- C5: within one run the scheduled copy operations carry pairwise distinct
uuids (so at most one copy per uuid, however many notes or rows reference
it); a uuid is copied iff some live note references an attachment with that
(truthy) uuid and a truthy filename; and when the first such note appears
after a prefix of notes none of which reference the uuid, the prefix
schedules no copy for it while that first note does. -/
theorem claim5_theorem :
    (∀ (rows : List NoteRow) (fileRows : List FileRow) (out : JStr)
        (flag : Bool) (lfp : Option JStr),
      (copyUuids (backupSchedule rows fileRows out flag lfp)).Nodup) ∧
    (∀ (cfg : RunCfg) (notes : List ProcessedNote) (u : JStr),
      u ∈ copyUuids (runNotes cfg [] notes).2 ↔
        ∃ n ∈ notes, n.trashed = 0 ∧
          ∃ f ∈ cfg.filesByNoteId n.id, eligibleRefB u f = true) ∧
    (∀ (cfg : RunCfg) (u : JStr) (pre : List ProcessedNote) (n : ProcessedNote),
      n.trashed = 0 →
      (∃ f ∈ cfg.filesByNoteId n.id, eligibleRefB u f = true) →
      (∀ m ∈ pre, m.trashed = 0 →
        ∀ f ∈ cfg.filesByNoteId m.id, eligibleRefB u f = false) →
      u ∉ copyUuids (runNotes cfg [] pre).2 ∧
      u ∈ copyUuids (processNote cfg (runNotes cfg [] pre).1 n).2) := by
  refine ⟨?_, ?_, ?_⟩
  · intro rows fileRows out flag lfp
    exact runNotes_copy_nodup _ _ _
  · intro cfg notes u
    rw [runNotes_copy_mem]
    simp
  · intro cfg u pre n htr hf hpre
    have hnotpre : u ∉ copyUuids (runNotes cfg [] pre).2 := by
      intro hin
      have hm := (runNotes_copy_mem cfg pre [] u).mp hin
      obtain ⟨m, hmem, hmtr, g, hg, hge⟩ := hm.2
      rw [hpre m hmem hmtr g hg] at hge
      cases hge
    refine ⟨hnotpre, ?_⟩
    apply (processNote_copy_mem cfg _ n u).mpr
    refine ⟨htr, ?_, hf⟩
    rw [runNotes_copied]
    intro hin
    rcases List.mem_append.mp hin with h | h
    · exact hnotpre (List.mem_reverse.mp h)
    · cases h

theorem claim5_witness :
    su "u1" ∈ copyUuids
      (processNote
        ⟨su "a", su "l", su "p", fun _ => [⟨1, some (su "u1"), some (su "f.png"), none⟩]⟩
        (runNotes
          ⟨su "a", su "l", su "p", fun _ => [⟨1, some (su "u1"), some (su "f.png"), none⟩]⟩
          [] []).1
        ⟨⟨1, su "T", none, none, 0, none⟩, su "T.md", su "out"⟩).2 :=
  (claim5_theorem.2.2
    ⟨su "a", su "l", su "p", fun _ => [⟨1, some (su "u1"), some (su "f.png"), none⟩]⟩
    (su "u1") [] ⟨⟨1, su "T", none, none, 0, none⟩, su "T.md", su "out"⟩
    (by decide)
    ⟨⟨1, some (su "u1"), some (su "f.png"), none⟩, by simp, by decide⟩
    (by simp)).2

theorem takeWhile_append_stop {p : Nat → Bool} :
    ∀ (xs : JStr) (y : Nat) (ys : JStr), (∀ c ∈ xs, p c = true) → p y = false →
      (xs ++ y :: ys).takeWhile p = xs := by
  intro xs
  induction xs with
  | nil => intro y ys _ hy; simp [List.takeWhile_cons, hy]
  | cons a xs ih =>
    intro y ys h hy
    have ha : p a = true := h a (List.mem_cons_self _ _)
    simp only [List.cons_append, List.takeWhile_cons, ha, if_true]
    rw [ih y ys (fun c hc => h c (List.mem_cons_of_mem a hc)) hy]

theorem dropWhile_append_stop {p : Nat → Bool} :
    ∀ (xs : JStr) (y : Nat) (ys : JStr), (∀ c ∈ xs, p c = true) → p y = false →
      (xs ++ y :: ys).dropWhile p = y :: ys := by
  intro xs
  induction xs with
  | nil => intro y ys _ hy; simp [List.dropWhile_cons, hy]
  | cons a xs ih =>
    intro y ys h hy
    have ha : p a = true := h a (List.mem_cons_self _ _)
    simp only [List.cons_append, List.dropWhile_cons, ha, if_true]
    exact ih y ys (fun c hc => h c (List.mem_cons_of_mem a hc)) hy

theorem bne93_of_not_mem {alt : JStr} (h93 : 93 ∉ alt) :
    ∀ c ∈ alt, (c != 93) = true := by
  intro c hc
  have : c ≠ 93 := fun e => h93 (e ▸ hc)
  simpa using this

theorem matchImgAt_hit (cand alt tail : JStr) (h93 : 93 ∉ alt) :
    matchImgAt cand (33 :: 91 :: (alt ++ 93 :: 40 :: (cand ++ 41 :: tail))) =
      some (33 :: 91 :: (alt ++ [93, 40]), tail) := by
  have htw := takeWhile_append_stop alt 93 (40 :: (cand ++ 41 :: tail))
    (bne93_of_not_mem h93) (by decide)
  have hdw := dropWhile_append_stop alt 93 (40 :: (cand ++ 41 :: tail))
    (bne93_of_not_mem h93) (by decide)
  have hp : cand.isPrefixOf (cand ++ 41 :: tail) = true :=
    List.isPrefixOf_iff_prefix.mpr (List.prefix_append _ _)
  simp [matchImgAt, htw, hdw, hp, List.drop_left]

theorem replImgAux_nil (cand np : JStr) : ∀ fuel, replImgAux cand np fuel [] = [] := by
  intro fuel; cases fuel <;> rfl

theorem replLinkAux_nil (cand np : JStr) : ∀ fuel, replLinkAux cand np fuel [] = [] := by
  intro fuel; cases fuel <;> rfl

theorem replImgAux_no91 (cand np : JStr) :
    ∀ (fuel : Nat) (s : JStr), 91 ∉ s → replImgAux cand np fuel s = s := by
  intro fuel
  induction fuel with
  | zero => intro s _; rfl
  | succ f ih =>
    intro s h
    cases s with
    | nil => rfl
    | cons c t =>
      have hmatch : matchImgAt cand (c :: t) = none := by
        cases t with
        | nil => rfl
        | cons c2 t2 =>
          have hc2 : c2 ≠ 91 := fun e =>
            h (e ▸ List.mem_cons_of_mem c (List.mem_cons_self c2 t2))
          simp only [matchImgAt]
          rw [if_neg (fun hc => hc2 hc.2)]
      simp only [replImgAux, hmatch]
      have ht : 91 ∉ t := fun e => h (List.mem_cons_of_mem c e)
      rw [ih t ht]

theorem replLinkAux_no91 (cand np : JStr) :
    ∀ (fuel : Nat) (s : JStr), 91 ∉ s → replLinkAux cand np fuel s = s := by
  intro fuel
  induction fuel with
  | zero => intro s _; rfl
  | succ f ih =>
    intro s h
    cases s with
    | nil => rfl
    | cons c t =>
      have hc : c ≠ 91 := fun e => h (e ▸ List.mem_cons_self c t)
      have hmatch : matchLinkAt cand (c :: t) = none := by
        simp only [matchLinkAt]
        rw [if_neg hc]
      simp only [replLinkAux, hmatch]
      have ht : 91 ∉ t := fun e => h (List.mem_cons_of_mem c e)
      rw [ih t ht]

theorem replImgAux_skip (cand np rest2 : JStr)
    (hnp : cand.isPrefixOf rest2 = false) (h91 : 91 ∉ rest2) :
    ∀ (fuel : Nat) (mid : JStr), 93 ∉ mid →
      replImgAux cand np fuel (mid ++ 93 :: 40 :: rest2) = mid ++ 93 :: 40 :: rest2 := by
  have hnine : (91 : Nat) ∉ 93 :: 40 :: rest2 := by
    intro h
    rcases List.mem_cons.mp h with h1 | h1
    · cases h1
    rcases List.mem_cons.mp h1 with h2 | h2
    · cases h2
    · exact absurd h2 h91
  intro fuel
  induction fuel with
  | zero => intro mid _; rfl
  | succ f ih =>
    intro mid h93
    cases mid with
    | nil =>
      simpa using replImgAux_no91 cand np (f + 1) (93 :: 40 :: rest2) hnine
    | cons a mid' =>
      have h93' : 93 ∉ mid' := fun e => h93 (List.mem_cons_of_mem a e)
      cases mid' with
      | nil =>
        have hmatch : matchImgAt cand (a :: 93 :: 40 :: rest2) = none := by
          simp only [matchImgAt]
          rw [if_neg (fun hc => absurd hc.2 (by decide))]
        simp only [List.cons_append, List.nil_append] at *
        simp only [replImgAux, hmatch]
        rw [show (93 : Nat) :: 40 :: rest2 = ([] : JStr) ++ 93 :: 40 :: rest2 from rfl,
          ih [] (by simp)]
      | cons b mid'' =>
        have h93'' : 93 ∉ mid'' := fun e => h93' (List.mem_cons_of_mem b e)
        have hmatch :
            matchImgAt cand (a :: b :: (mid'' ++ 93 :: 40 :: rest2)) = none := by
          simp only [matchImgAt]
          by_cases hab : a = 33 ∧ b = 91
          · rw [if_pos hab]
            rw [dropWhile_append_stop mid'' 93 (40 :: rest2) (bne93_of_not_mem h93'')
              (by decide)]
            simp [hnp]
          · rw [if_neg hab]
        simp only [List.cons_append] at *
        simp only [replImgAux, hmatch]
        rw [show (b :: (mid'' ++ 93 :: 40 :: rest2) : JStr) =
          (b :: mid'') ++ 93 :: 40 :: rest2 from rfl, ih (b :: mid'') h93']

theorem replLinkAux_skip (cand np rest2 : JStr)
    (hnp : cand.isPrefixOf rest2 = false) (h91 : 91 ∉ rest2) :
    ∀ (fuel : Nat) (mid : JStr), 93 ∉ mid →
      replLinkAux cand np fuel (mid ++ 93 :: 40 :: rest2) = mid ++ 93 :: 40 :: rest2 := by
  have hnine : (91 : Nat) ∉ 93 :: 40 :: rest2 := by
    intro h
    rcases List.mem_cons.mp h with h1 | h1
    · cases h1
    rcases List.mem_cons.mp h1 with h2 | h2
    · cases h2
    · exact absurd h2 h91
  intro fuel
  induction fuel with
  | zero => intro mid _; rfl
  | succ f ih =>
    intro mid h93
    cases mid with
    | nil =>
      simpa using replLinkAux_no91 cand np (f + 1) (93 :: 40 :: rest2) hnine
    | cons a mid' =>
      have h93' : 93 ∉ mid' := fun e => h93 (List.mem_cons_of_mem a e)
      have hmatch : matchLinkAt cand (a :: (mid' ++ 93 :: 40 :: rest2)) = none := by
        simp only [matchLinkAt]
        by_cases ha : a = 91
        · rw [if_pos ha]
          rw [dropWhile_append_stop mid' 93 (40 :: rest2) (bne93_of_not_mem h93')
            (by decide)]
          simp [hnp]
        · rw [if_neg ha]
      simp only [List.cons_append] at *
      simp only [replLinkAux, hmatch]
      rw [ih mid' h93']

theorem replImgAux_succ_hit (cand np : JStr) (fuel : Nat) (s g1 rest : JStr)
    (h : matchImgAt cand s = some (g1, rest)) :
    replImgAux cand np (fuel + 1) s =
      g1 ++ np ++ 41 :: replImgAux cand np fuel rest := by
  simp [replImgAux, h]

/-- C4: rewriting "![](image.png)" with the map {image.png ->
ABCD1234-image.png} and prefix "assets/" yields
"![](assets/ABCD1234-image.png)"; with prefix "../assets/" the
parent-relative form; and for every alt text (any code units other than
']', which the regex's `[^\]]*` cannot cross) the alt portion of an image
reference passes through rewriting unchanged. -/
theorem claim4_theorem :
    rewriteAssetReferences (some (su "![](image.png)"))
        [(su "image.png", su "ABCD1234-image.png")] (su "assets/") =
      some (su "![](assets/ABCD1234-image.png)") ∧
    rewriteAssetReferences (some (su "![](image.png)"))
        [(su "image.png", su "ABCD1234-image.png")] (su "../assets/") =
      some (su "![](../assets/ABCD1234-image.png)") ∧
    (∀ alt : JStr, 93 ∉ alt →
      rewriteAssetReferences (some (33 :: 91 :: (alt ++ su "](image.png)")))
          [(su "image.png", su "ABCD1234-image.png")] (su "assets/") =
        some (33 :: 91 :: (alt ++ su "](assets/ABCD1234-image.png)"))) := by
  refine ⟨by decide, by decide, ?_⟩
  intro alt h93
  have h93' : (93 : Nat) ∉ 33 :: 91 :: alt := by
    intro h
    rcases List.mem_cons.mp h with h1 | h1
    · cases h1
    rcases List.mem_cons.mp h1 with h2 | h2
    · cases h2
    · exact h93 h2
  have hnp : (su "image.png").isPrefixOf
      (su "assets/ABCD1234-image.png" ++ 41 :: ([] : JStr)) = false := by decide
  have h91 : (91 : Nat) ∉ su "assets/ABCD1234-image.png" ++ 41 :: ([] : JStr) := by
    decide
  rw [show (su "](image.png)" : JStr) =
    93 :: 40 :: (su "image.png" ++ 41 :: []) from by decide]
  rw [show (su "](assets/ABCD1234-image.png)" : JStr) =
    93 :: 40 :: (su "assets/ABCD1234-image.png" ++ 41 :: []) from by decide]
  have hred : rewriteAssetReferences
      (some (33 :: 91 :: (alt ++ 93 :: 40 :: (su "image.png" ++ 41 :: []))))
      [(su "image.png", su "ABCD1234-image.png")] (su "assets/") =
      some (applyPattern (applyPattern (applyPattern
        (33 :: 91 :: (alt ++ 93 :: 40 :: (su "image.png" ++ 41 :: [])))
        (su "image.png") (su "assets/ABCD1234-image.png"))
        (su "image.png") (su "assets/ABCD1234-image.png"))
        (su "image.png") (su "assets/ABCD1234-image.png")) := by
    simp [rewriteAssetReferences, rewriteEntry,
      show encodeURIComponent (su "image.png") = su "image.png" from by decide,
      show bearEncode (su "image.png") = su "image.png" from by decide,
      show (su "assets/" : JStr) ++ bearEncode (su "ABCD1234-image.png") =
        su "assets/ABCD1234-image.png" from by decide]
  rw [hred]
  have step1 : applyPattern
      (33 :: 91 :: (alt ++ 93 :: 40 :: (su "image.png" ++ 41 :: [])))
      (su "image.png") (su "assets/ABCD1234-image.png") =
      33 :: 91 :: (alt ++ 93 :: 40 :: (su "assets/ABCD1234-image.png" ++ 41 :: [])) := by
    have himg : replImgAll
        (33 :: 91 :: (alt ++ 93 :: 40 :: (su "image.png" ++ 41 :: [])))
        (su "image.png") (su "assets/ABCD1234-image.png") =
        33 :: 91 :: (alt ++ 93 :: 40 :: (su "assets/ABCD1234-image.png" ++ 41 :: [])) := by
      show replImgAux (su "image.png") (su "assets/ABCD1234-image.png")
        (33 :: 91 :: (alt ++ 93 :: 40 :: (su "image.png" ++ 41 :: []))).length
        (33 :: 91 :: (alt ++ 93 :: 40 :: (su "image.png" ++ 41 :: []))) = _
      rw [List.length_cons,
        replImgAux_succ_hit _ _ _ _ _ _ (matchImgAt_hit (su "image.png") alt [] h93),
        replImgAux_nil]
      simp
    show replLinkAll (replImgAll _ _ _) _ _ = _
    rw [himg]
    exact replLinkAux_skip (su "image.png") (su "assets/ABCD1234-image.png")
      (su "assets/ABCD1234-image.png" ++ 41 :: []) hnp h91 _ (33 :: 91 :: alt) h93'
  have stepR : applyPattern
      (33 :: 91 :: (alt ++ 93 :: 40 :: (su "assets/ABCD1234-image.png" ++ 41 :: [])))
      (su "image.png") (su "assets/ABCD1234-image.png") =
      33 :: 91 :: (alt ++ 93 :: 40 :: (su "assets/ABCD1234-image.png" ++ 41 :: [])) := by
    have himg : replImgAll
        (33 :: 91 :: (alt ++ 93 :: 40 :: (su "assets/ABCD1234-image.png" ++ 41 :: [])))
        (su "image.png") (su "assets/ABCD1234-image.png") =
        33 :: 91 :: (alt ++ 93 :: 40 :: (su "assets/ABCD1234-image.png" ++ 41 :: [])) :=
      replImgAux_skip (su "image.png") (su "assets/ABCD1234-image.png")
        (su "assets/ABCD1234-image.png" ++ 41 :: []) hnp h91 _ (33 :: 91 :: alt) h93'
    show replLinkAll (replImgAll _ _ _) _ _ = _
    rw [himg]
    exact replLinkAux_skip (su "image.png") (su "assets/ABCD1234-image.png")
      (su "assets/ABCD1234-image.png" ++ 41 :: []) hnp h91 _ (33 :: 91 :: alt) h93'
  rw [step1, stepR, stepR]

theorem claim4_witness :
    (93 : Nat) ∉ su "alt" ∧
    rewriteAssetReferences (some (33 :: 91 :: (su "alt" ++ su "](image.png)")))
        [(su "image.png", su "ABCD1234-image.png")] (su "assets/") =
      some (33 :: 91 :: (su "alt" ++ su "](assets/ABCD1234-image.png)")) :=
  ⟨by decide, claim4_theorem.2.2 (su "alt") (by decide)⟩
